import Mathlib

/-!
# Formal model of the vidplayer-react thumbnail preview subsystem

This file embeds the core of `src/hooks/use-thumbnail-generator.ts` and the
position clamping of the `ThumbnailPreview` component in Lean 4 and proves the
specification claims about them.

The JavaScript `Map` underlying `ThumbnailLRUCache` preserves insertion order;
we model it as an association list, head = oldest (next eviction candidate),
tail end = most recently inserted.  Times are modelled as rationals (exact
versions of the JS doubles involved).  The debounce scheduler and the
seek/capture event machinery are modelled as explicit state machines whose
events correspond to the timer callback, the `seeked` event, the `error`
event, the source-change effect and the teardown cleanup of the hook.
-/

namespace VidPlayer

/-! ## The LRU cache (`ThumbnailLRUCache`)

Keys are the strings produced by `getCacheKey`, values are the data-URL
strings produced by `canvas.toDataURL`.  All operations are transcribed from
the class methods; a `Map` never holds duplicate keys, so list deletion below
coincides with `Map.delete` on every reachable state. -/

abbrev Cache := List (String × String)

/-- Keys currently stored, oldest first. -/
def cacheKeys (c : Cache) : List String := c.map Prod.fst

/-- `Map.get`: the value stored under `k`, if any. -/
def cacheLookup : Cache → String → Option String
  | [], _ => none
  | (k', v) :: rest, k => if k' = k then some v else cacheLookup rest k

/-- `Map.delete k`: remove the entry with key `k`. -/
def cacheDelete : Cache → String → Cache
  | [], _ => []
  | (k', v) :: rest, k => if k' = k then cacheDelete rest k else (k', v) :: cacheDelete rest k

/-- `ThumbnailLRUCache.get`: on a hit the entry is deleted and re-inserted at
the most-recently-used end; on a miss nothing changes.  Returns the value and
the updated map. -/
def cacheGet (c : Cache) (k : String) : Option String × Cache :=
  match cacheLookup c k with
  | none => (none, c)
  | some v => (some v, cacheDelete c k ++ [(k, v)])

/-- `ThumbnailLRUCache.has`. -/
def cacheHas (c : Cache) (k : String) : Bool := (cacheLookup c k).isSome

/-- `ThumbnailLRUCache.set`: delete the key if present, evict the oldest
entry when still at capacity (the code guards `oldestKey !== undefined`,
which is the `tail` of the empty list being empty), then append at the
most-recently-used end. -/
def cacheSet (c : Cache) (k v : String) (maxSize : Nat) : Cache :=
  let c1 := if cacheHas c k then cacheDelete c k else c
  let c2 := if maxSize ≤ c1.length then c1.tail else c1
  c2 ++ [(k, v)]

/-- `ThumbnailLRUCache.size`. -/
def cacheSize (c : Cache) : Nat := c.length

/-- The state produced by `new ThumbnailLRUCache(maxSize)`: the constructor
stores an empty map and the requested capacity, performing no validation. -/
structure ThumbnailLRUCacheState where
  cache : Cache
  maxSize : Nat
  deriving Repr, DecidableEq

/-- `ThumbnailLRUCache.constructor`; in the source the parameter defaults to
`MAX_CACHE_SIZE = 50` when omitted. -/
def mkThumbnailLRUCache (maxSize : Nat) : ThumbnailLRUCacheState :=
  { cache := [], maxSize := maxSize }

/-! ### Basic lemmas about the list operations -/

theorem cacheDelete_sublist (c : Cache) (k : String) : List.Sublist (cacheDelete c k) c := by
  induction c with
  | nil => exact List.Sublist.refl _
  | cons p rest ih =>
    obtain ⟨k', v⟩ := p
    by_cases h : k' = k
    · simpa [cacheDelete, h] using ih.trans (List.sublist_cons_self _ _)
    · simpa [cacheDelete, h] using List.Sublist.cons₂ (k', v) ih

theorem mem_cacheKeys_cacheDelete {c : Cache} {k a : String} :
    a ∈ cacheKeys (cacheDelete c k) ↔ a ∈ cacheKeys c ∧ a ≠ k := by
  induction c with
  | nil => simp [cacheDelete, cacheKeys]
  | cons p rest ih =>
    obtain ⟨k', v⟩ := p
    by_cases h : k' = k
    · subst h
      simp only [cacheDelete, if_pos rfl, cacheKeys, List.map_cons, List.mem_cons]
      rw [show (cacheKeys (cacheDelete rest k') = (cacheDelete rest k').map Prod.fst) from rfl] at ih
      constructor
      · intro ha
        have := ih.mp ha
        exact ⟨Or.inr this.1, this.2⟩
      · rintro ⟨ha | ha, hne⟩
        · exact absurd ha hne
        · exact ih.mpr ⟨ha, hne⟩
    · simp only [cacheDelete, if_neg h, cacheKeys, List.map_cons, List.mem_cons]
      constructor
      · rintro (rfl | ha)
        · exact ⟨Or.inl rfl, fun hk => h hk⟩
        · have := ih.mp ha
          exact ⟨Or.inr this.1, this.2⟩
      · rintro ⟨rfl | ha, hne⟩
        · exact Or.inl rfl
        · exact Or.inr (ih.mpr ⟨ha, hne⟩)

theorem cacheDelete_of_not_mem {c : Cache} {k : String} (h : k ∉ cacheKeys c) :
    cacheDelete c k = c := by
  induction c with
  | nil => rfl
  | cons p rest ih =>
    obtain ⟨k', v⟩ := p
    simp only [cacheKeys, List.map_cons, List.mem_cons, not_or] at h
    have hne : k' ≠ k := fun hk => h.1 hk.symm
    simp [cacheDelete, hne, ih h.2]

theorem cacheLookup_isSome_iff {c : Cache} {k : String} :
    (cacheLookup c k).isSome = true ↔ k ∈ cacheKeys c := by
  induction c with
  | nil => simp [cacheLookup, cacheKeys]
  | cons p rest ih =>
    obtain ⟨k', v⟩ := p
    by_cases h : k' = k
    · subst h; simp [cacheLookup, cacheKeys]
    · have hne : ¬k = k' := fun hk => h hk.symm
      simp only [cacheLookup, if_neg h, cacheKeys, List.map_cons, List.mem_cons]
      constructor
      · intro hs
        exact Or.inr (ih.mp hs)
      · rintro (hk | hk)
        · exact absurd hk hne
        · exact ih.mpr hk

theorem cacheHas_iff {c : Cache} {k : String} :
    cacheHas c k = true ↔ k ∈ cacheKeys c := cacheLookup_isSome_iff

theorem cacheLookup_eq_none_of_not_mem {c : Cache} {k : String} (h : k ∉ cacheKeys c) :
    cacheLookup c k = none := by
  by_contra hne
  exact h (cacheLookup_isSome_iff.mp (Option.isSome_iff_ne_none.mpr (by simpa using hne)))

theorem length_cacheDelete_add_one {c : Cache} {k : String}
    (hn : (cacheKeys c).Nodup) (hm : k ∈ cacheKeys c) :
    (cacheDelete c k).length + 1 = c.length := by
  induction c with
  | nil => simp [cacheKeys] at hm
  | cons p rest ih =>
    obtain ⟨k', v⟩ := p
    simp only [cacheKeys, List.map_cons, List.nodup_cons] at hn
    simp only [cacheKeys, List.map_cons, List.mem_cons] at hm
    by_cases h : k' = k
    · subst h
      have : k' ∉ cacheKeys rest := hn.1
      simp [cacheDelete, cacheDelete_of_not_mem this]
    · have hm' : k ∈ cacheKeys rest := by
        rcases hm with h1 | h1
        · exact absurd h1.symm h
        · exact h1
      simp only [cacheDelete, if_neg h, List.length_cons]
      rw [← ih hn.2 hm']

/-! ## Operation traces with ghost recency bookkeeping

A trace of public cache operations is replayed from the freshly constructed
(empty) cache.  Alongside the cache contents we record, as ghost state, the
step index of the last *touch* of every key — a touch being a `get` that found
the key or any `set` of the key, exactly the state changes that promote an
entry in the implementation — together with the list of distinct keys ever
passed to `set`. -/

/-- One public operation on the cache. -/
inductive CacheOp where
  | get (k : String)
  | set (k : String) (v : String)
  | has (k : String)
  | clear
  deriving Repr, DecidableEq

/-- Whether an operation is a `get` or a `set`. -/
def CacheOp.isGetSet : CacheOp → Bool
  | .get _ => true
  | .set _ _ => true
  | _ => false

/-- Cache contents plus ghost bookkeeping: `touch k` is the step index of the
last touch of `k` (`none` if never touched), `everSet` lists the distinct keys
ever passed to `set`, `step` counts operations executed. -/
structure TState where
  cache : Cache
  touch : String → Option Nat
  everSet : List String
  step : Nat

/-- Record a touch of `k` at step `n`. -/
def touchUpd (t : String → Option Nat) (k : String) (n : Nat) : String → Option Nat :=
  fun k' => if k' = k then some n else t k'

/-- The state of a freshly constructed cache. -/
def initTState : TState := ⟨[], fun _ => none, [], 0⟩

/-- Execute one operation against a cache of capacity `N` (the method bodies
of `ThumbnailLRUCache`), updating the ghost fields. -/
def stepOp (N : Nat) (s : TState) : CacheOp → TState
  | .get k =>
    match cacheLookup s.cache k with
    | none => { s with step := s.step + 1 }
    | some _ =>
      { s with cache := (cacheGet s.cache k).2, touch := touchUpd s.touch k s.step,
               step := s.step + 1 }
  | .set k v =>
    { s with cache := cacheSet s.cache k v N, touch := touchUpd s.touch k s.step,
             everSet := if k ∈ s.everSet then s.everSet else s.everSet ++ [k],
             step := s.step + 1 }
  | .has _ => { s with step := s.step + 1 }
  | .clear => { s with cache := [], step := s.step + 1 }

/-- Replay a trace from the freshly constructed cache. -/
def runOps (N : Nat) (ops : List CacheOp) : TState := ops.foldl (stepOp N) initTState

/-- Invariant tying the cache contents to the ghost recency data: keys are
unique, recorded touches lie in the past, every held key was touched, the
storage order of held keys is exactly increasing last-touch order, every
touched-but-absent key was touched before every held key, the size is
bounded by the capacity, and held keys were all passed to `set` at some
point. -/
structure CacheInv (N : Nat) (s : TState) : Prop where
  nodup : (cacheKeys s.cache).Nodup
  touch_lt : ∀ k i, s.touch k = some i → i < s.step
  held_touched : ∀ k ∈ cacheKeys s.cache, (s.touch k).isSome = true
  ordered : (cacheKeys s.cache).Pairwise
      (fun a b => ∀ i j, s.touch a = some i → s.touch b = some j → i < j)
  absent_lt : ∀ k, k ∉ cacheKeys s.cache → ∀ i, s.touch k = some i →
      ∀ k2 ∈ cacheKeys s.cache, ∀ j, s.touch k2 = some j → i < j
  size_le : s.cache.length ≤ N
  held_everSet : ∀ k ∈ cacheKeys s.cache, k ∈ s.everSet
  everSet_nodup : s.everSet.Nodup

/-- Additional invariant that holds as long as `clear` never ran: while below
capacity every key ever set is still held, and the size equals the number of
distinct keys ever set, capped at the capacity. -/
structure FillInv (N : Nat) (s : TState) : Prop where
  below_full : s.cache.length < N → ∀ k ∈ s.everSet, k ∈ cacheKeys s.cache
  len_eq : s.cache.length = min s.everSet.length N

theorem cacheInv_init (N : Nat) : CacheInv N initTState := by
  constructor <;> simp [initTState, cacheKeys]

theorem fillInv_init (N : Nat) : FillInv N initTState := by
  constructor <;> simp [initTState, cacheKeys]

/-! ### Shape lemmas for `cacheSet` -/

theorem cacheSet_mem_eq {c : Cache} {k v : String} {N : Nat}
    (hn : (cacheKeys c).Nodup) (hmem : k ∈ cacheKeys c) (hsz : c.length ≤ N) :
    cacheSet c k v N = cacheDelete c k ++ [(k, v)] := by
  have h1 : cacheHas c k = true := cacheHas_iff.mpr hmem
  have h2 : ¬N ≤ (cacheDelete c k).length := by
    have := length_cacheDelete_add_one hn hmem
    omega
  simp only [cacheSet, if_pos h1, if_neg h2]

theorem cacheSet_new_full {c : Cache} {k v : String} {N : Nat}
    (hmem : k ∉ cacheKeys c) (hfull : N ≤ c.length) :
    cacheSet c k v N = c.tail ++ [(k, v)] := by
  have h1 : ¬cacheHas c k = true := fun hh => hmem (cacheHas_iff.mp hh)
  simp only [cacheSet, if_neg h1, if_pos hfull]

theorem cacheSet_new_room {c : Cache} {k v : String} {N : Nat}
    (hmem : k ∉ cacheKeys c) (hroom : ¬N ≤ c.length) :
    cacheSet c k v N = c ++ [(k, v)] := by
  have h1 : ¬cacheHas c k = true := fun hh => hmem (cacheHas_iff.mp hh)
  simp only [cacheSet, if_neg h1, if_neg hroom]

theorem cacheKeys_append (a b : Cache) :
    cacheKeys (a ++ b) = cacheKeys a ++ cacheKeys b := List.map_append _ _ _

theorem cacheKeys_tail (c : Cache) : cacheKeys c.tail = (cacheKeys c).tail := by
  cases c <;> rfl

/-! ### Invariant preservation

Every state change of the cache either leaves the contents untouched, empties
them, or has the shape `c' ++ [(k, v)]` for a sublist `c'` of the old
contents that does not contain `k`, together with a fresh touch of `k`.  The
following lemma handles all insert-shaped cases at once. -/

theorem cacheInv_insert (N : Nat) (s : TState) (h : CacheInv N s) (c' : Cache)
    (k v : String) (es' : List String)
    (hsub : List.Sublist c' s.cache) (hk : k ∉ cacheKeys c')
    (hlen : c'.length + 1 ≤ N)
    (habs : ∀ x, x ∈ cacheKeys s.cache → x ∉ cacheKeys c' → x ≠ k → ∀ i,
        s.touch x = some i → ∀ k2 ∈ cacheKeys c', ∀ j, s.touch k2 = some j → i < j)
    (hes_sub : ∀ x ∈ s.everSet, x ∈ es') (hes_k : k ∈ es') (hes_nodup : es'.Nodup) :
    CacheInv N { cache := c' ++ [(k, v)], touch := touchUpd s.touch k s.step,
                 everSet := es', step := s.step + 1 } := by
  have hkeysub : List.Sublist (cacheKeys c') (cacheKeys s.cache) := hsub.map Prod.fst
  have hsubset : ∀ x ∈ cacheKeys c', x ∈ cacheKeys s.cache := fun x hx => hkeysub.mem hx
  have hkeys : cacheKeys (c' ++ [(k, v)]) = cacheKeys c' ++ [k] := by
    simp [cacheKeys]
  have htk : touchUpd s.touch k s.step k = some s.step := by simp [touchUpd]
  have htne : ∀ x, x ≠ k → touchUpd s.touch k s.step x = s.touch x := by
    intro x hx; simp [touchUpd, hx]
  have hne_of_mem : ∀ x ∈ cacheKeys c', x ≠ k := fun x hx hxk => hk (hxk ▸ hx)
  constructor
  · -- nodup
    rw [hkeys]
    rw [List.nodup_append]
    exact ⟨h.nodup.sublist hkeysub, List.nodup_singleton k,
      fun x hx => by simpa using hne_of_mem x hx⟩
  · -- touch_lt
    intro x i hx
    dsimp only at hx ⊢
    by_cases hxk : x = k
    · subst hxk
      rw [htk] at hx
      have := Option.some.inj hx
      omega
    · rw [htne x hxk] at hx
      have := h.touch_lt x i hx
      omega
  · -- held_touched
    intro x hx
    rw [hkeys] at hx
    dsimp only
    rcases List.mem_append.mp hx with hx | hx
    · rw [htne x (hne_of_mem x hx)]
      exact h.held_touched x (hsubset x hx)
    · have : x = k := by simpa using hx
      subst this
      rw [htk]
      rfl
  · -- ordered
    rw [hkeys]
    rw [List.pairwise_append]
    refine ⟨?_, List.pairwise_singleton _ _, ?_⟩
    · have base : (cacheKeys c').Pairwise
          (fun a b => ∀ i j, s.touch a = some i → s.touch b = some j → i < j) :=
        h.ordered.sublist hkeysub
      refine base.imp_of_mem ?_
      intro a b ha hb hab i j hi hj
      dsimp only at hi hj
      rw [htne a (hne_of_mem a ha)] at hi
      rw [htne b (hne_of_mem b hb)] at hj
      exact hab i j hi hj
    · intro a ha b hb
      have hbk : b = k := by simpa using hb
      subst hbk
      intro i j hi hj
      dsimp only at hi hj
      rw [htne a (hne_of_mem a ha)] at hi
      rw [htk] at hj
      have h1 := h.touch_lt a i hi
      have h2 := Option.some.inj hj
      omega
  · -- absent_lt
    intro x hx i hxi k2 hk2 j hk2j
    rw [hkeys] at hx hk2
    dsimp only at hxi hk2j
    have hxk : x ≠ k := by
      intro hxe; subst hxe
      exact hx (List.mem_append.mpr (Or.inr (by simp)))
    have hxc' : x ∉ cacheKeys c' := fun hc => hx (List.mem_append.mpr (Or.inl hc))
    rw [htne x hxk] at hxi
    rcases List.mem_append.mp hk2 with hk2 | hk2
    · -- k2 stays from the old contents
      rw [htne k2 (hne_of_mem k2 hk2)] at hk2j
      by_cases hxold : x ∈ cacheKeys s.cache
      · exact habs x hxold hxc' hxk i hxi k2 hk2 j hk2j
      · exact h.absent_lt x hxold i hxi k2 (hsubset k2 hk2) j hk2j
    · -- k2 is the freshly touched key
      have : k2 = k := by simpa using hk2
      subst this
      rw [htk] at hk2j
      have h1 := h.touch_lt x i hxi
      have h2 := Option.some.inj hk2j
      omega
  · -- size_le
    simpa using hlen
  · -- held_everSet
    intro x hx
    rw [hkeys] at hx
    rcases List.mem_append.mp hx with hx | hx
    · exact hes_sub x (h.held_everSet x (hsubset x hx))
    · have : x = k := by simpa using hx
      subst this
      exact hes_k
  · -- everSet_nodup
    exact hes_nodup

theorem cacheInv_step (N : Nat) (hN : 1 ≤ N) (s : TState) (op : CacheOp)
    (h : CacheInv N s) : CacheInv N (stepOp N s op) := by
  cases op with
  | has k =>
    exact ⟨h.nodup, fun x i hi => Nat.lt_succ_of_lt (h.touch_lt x i hi), h.held_touched,
      h.ordered, h.absent_lt, h.size_le, h.held_everSet, h.everSet_nodup⟩
  | clear =>
    have hshape : stepOp N s .clear = { s with cache := [], step := s.step + 1 } := rfl
    rw [hshape]
    refine ⟨?_, ?_, ?_, ?_, ?_, ?_, ?_, ?_⟩
    · simp [cacheKeys]
    · exact fun x i hi => Nat.lt_succ_of_lt (h.touch_lt x i hi)
    · intro x hx; simp [cacheKeys] at hx
    · simp [cacheKeys]
    · intro x hx i hi k2 hk2; simp [cacheKeys] at hk2
    · simp
    · intro x hx; simp [cacheKeys] at hx
    · exact h.everSet_nodup
  | get k =>
    rcases hl : cacheLookup s.cache k with _ | v
    · have hshape : stepOp N s (.get k) = { s with step := s.step + 1 } := by
        simp [stepOp, hl]
      rw [hshape]
      exact ⟨h.nodup, fun x i hi => Nat.lt_succ_of_lt (h.touch_lt x i hi), h.held_touched,
        h.ordered, h.absent_lt, h.size_le, h.held_everSet, h.everSet_nodup⟩
    · have hmem : k ∈ cacheKeys s.cache := cacheLookup_isSome_iff.mp (by rw [hl]; rfl)
      have hshape : stepOp N s (.get k) =
          { cache := cacheDelete s.cache k ++ [(k, v)], touch := touchUpd s.touch k s.step,
            everSet := s.everSet, step := s.step + 1 } := by
        simp [stepOp, hl, cacheGet]
      rw [hshape]
      refine cacheInv_insert N s h (cacheDelete s.cache k) k v s.everSet
        (cacheDelete_sublist _ _) ?_ ?_ ?_ (fun x hx => hx) (h.held_everSet k hmem)
        h.everSet_nodup
      · intro hc
        exact (mem_cacheKeys_cacheDelete.mp hc).2 rfl
      · have h1 := length_cacheDelete_add_one h.nodup hmem
        have h2 := h.size_le
        omega
      · intro x hx hxd hxk
        exact ((hxd (mem_cacheKeys_cacheDelete.mpr ⟨hx, hxk⟩)).elim)
  | set k v =>
    have hshape0 : stepOp N s (.set k v) =
        { cache := cacheSet s.cache k v N, touch := touchUpd s.touch k s.step,
          everSet := if k ∈ s.everSet then s.everSet else s.everSet ++ [k],
          step := s.step + 1 } := rfl
    have hes_sub : ∀ x ∈ s.everSet,
        x ∈ (if k ∈ s.everSet then s.everSet else s.everSet ++ [k]) := by
      intro x hx
      split <;> simp [hx]
    have hes_k : k ∈ (if k ∈ s.everSet then s.everSet else s.everSet ++ [k]) := by
      split
      · assumption
      · simp
    have hes_nodup : (if k ∈ s.everSet then s.everSet else s.everSet ++ [k]).Nodup := by
      split
      · exact h.everSet_nodup
      · rename_i hke
        rw [List.nodup_append]
        refine ⟨h.everSet_nodup, List.nodup_singleton _, ?_⟩
        intro a ha hak
        simp only [List.mem_singleton] at hak
        subst hak
        exact hke ha
    by_cases hmem : k ∈ cacheKeys s.cache
    · rw [hshape0, cacheSet_mem_eq h.nodup hmem h.size_le]
      refine cacheInv_insert N s h (cacheDelete s.cache k) k v _
        (cacheDelete_sublist _ _) ?_ ?_ ?_ hes_sub hes_k hes_nodup
      · intro hc
        exact (mem_cacheKeys_cacheDelete.mp hc).2 rfl
      · have h1 := length_cacheDelete_add_one h.nodup hmem
        have h2 := h.size_le
        omega
      · intro x hx hxd hxk
        exact ((hxd (mem_cacheKeys_cacheDelete.mpr ⟨hx, hxk⟩)).elim)
    · by_cases hfull : N ≤ s.cache.length
      · rw [hshape0, cacheSet_new_full hmem hfull]
        refine cacheInv_insert N s h s.cache.tail k v _
          (List.tail_sublist _) ?_ ?_ ?_ hes_sub hes_k hes_nodup
        · intro hc
          rw [cacheKeys_tail] at hc
          exact hmem (List.mem_of_mem_tail hc)
        · have h1 := List.length_tail s.cache
          have h2 := h.size_le
          omega
        · intro x hx hxt hxk i hxi k2 hk2 j hk2j
          rcases hc : s.cache with _ | ⟨p, rest⟩
          · rw [hc] at hx
            exact absurd hx (by simp [cacheKeys])
          · have hord := h.ordered
            rw [hc] at hx hxt hk2 hord
            simp only [List.tail_cons] at hxt hk2
            simp only [cacheKeys, List.map_cons, List.mem_cons] at hx
            have hxp : x = p.1 := by
              rcases hx with hx | hx
              · exact hx
              · exact absurd hx hxt
            subst hxp
            simp only [cacheKeys, List.map_cons, List.pairwise_cons] at hord
            exact hord.1 k2 hk2 i j hxi hk2j
      · rw [hshape0, cacheSet_new_room hmem hfull]
        refine cacheInv_insert N s h s.cache k v _
          (List.Sublist.refl _) hmem ?_ ?_ hes_sub hes_k hes_nodup
        · omega
        · intro x hx hxc
          exact ((hxc hx).elim)

theorem mem_keys_delete_insert {c : Cache} {k v : String} :
    ∀ x ∈ cacheKeys c, x ∈ cacheKeys (cacheDelete c k ++ [(k, v)]) := by
  intro x hx
  rw [cacheKeys_append]
  by_cases hxk : x = k
  · subst hxk
    exact List.mem_append.mpr (Or.inr (by simp [cacheKeys]))
  · exact List.mem_append.mpr (Or.inl (mem_cacheKeys_cacheDelete.mpr ⟨hx, hxk⟩))

theorem fillInv_step (N : Nat) (hN : 1 ≤ N) (s : TState) (op : CacheOp)
    (h : CacheInv N s) (hf : FillInv N s) (hop : op ≠ CacheOp.clear) :
    FillInv N (stepOp N s op) := by
  cases op with
  | has k => exact ⟨hf.below_full, hf.len_eq⟩
  | clear => exact absurd rfl hop
  | get k =>
    rcases hl : cacheLookup s.cache k with _ | v
    · have hshape : stepOp N s (.get k) = { s with step := s.step + 1 } := by
        simp [stepOp, hl]
      rw [hshape]
      exact ⟨hf.below_full, hf.len_eq⟩
    · have hmem : k ∈ cacheKeys s.cache := cacheLookup_isSome_iff.mp (by rw [hl]; rfl)
      have hshape : stepOp N s (.get k) =
          { cache := cacheDelete s.cache k ++ [(k, v)], touch := touchUpd s.touch k s.step,
            everSet := s.everSet, step := s.step + 1 } := by
        simp [stepOp, hl, cacheGet]
      rw [hshape]
      have hlen : (cacheDelete s.cache k ++ [(k, v)]).length = s.cache.length := by
        have := length_cacheDelete_add_one h.nodup hmem
        simp only [List.length_append, List.length_singleton]
        omega
      constructor
      · intro hlt x hx
        dsimp only at hlt ⊢
        rw [hlen] at hlt
        exact mem_keys_delete_insert x (hf.below_full hlt x hx)
      · dsimp only
        rw [hlen]
        exact hf.len_eq
  | set k v =>
    have hshape0 : stepOp N s (.set k v) =
        { cache := cacheSet s.cache k v N, touch := touchUpd s.touch k s.step,
          everSet := if k ∈ s.everSet then s.everSet else s.everSet ++ [k],
          step := s.step + 1 } := rfl
    rw [hshape0]
    by_cases hmem : k ∈ cacheKeys s.cache
    · -- the key is held: same-size delete-and-reinsert, everSet unchanged
      have hke : k ∈ s.everSet := h.held_everSet k hmem
      rw [cacheSet_mem_eq h.nodup hmem h.size_le]
      have hlen : (cacheDelete s.cache k ++ [(k, v)]).length = s.cache.length := by
        have := length_cacheDelete_add_one h.nodup hmem
        simp only [List.length_append, List.length_singleton]
        omega
      constructor
      · intro hlt x hx
        dsimp only at hlt hx ⊢
        rw [hlen] at hlt
        rw [if_pos hke] at hx
        exact mem_keys_delete_insert x (hf.below_full hlt x hx)
      · dsimp only
        rw [hlen, if_pos hke]
        exact hf.len_eq
    · by_cases hke : k ∈ s.everSet
      · -- set before but no longer held: only possible at capacity
        by_cases hfull : N ≤ s.cache.length
        · rw [cacheSet_new_full hmem hfull]
          have hcl : s.cache.length = N := le_antisymm h.size_le hfull
          have hne : s.cache.length ≠ 0 := by omega
          have hlen : (s.cache.tail ++ [(k, v)]).length = N := by
            have := List.length_tail s.cache
            simp only [List.length_append, List.length_singleton]
            omega
          constructor
          · intro hlt
            dsimp only at hlt
            rw [hlen] at hlt
            omega
          · dsimp only
            rw [hlen, if_pos hke]
            have := hf.len_eq
            omega
        · exact absurd (hf.below_full (by omega) k hke) hmem
      · -- a genuinely new key
        have heslen : s.everSet.length = (s.everSet ++ [k]).length - 1 := by simp
        by_cases hfull : N ≤ s.cache.length
        · rw [cacheSet_new_full hmem hfull]
          have hcl : s.cache.length = N := le_antisymm h.size_le hfull
          have hlen : (s.cache.tail ++ [(k, v)]).length = N := by
            have := List.length_tail s.cache
            simp only [List.length_append, List.length_singleton]
            omega
          have hesN : N ≤ s.everSet.length := by
            have := hf.len_eq
            omega
          constructor
          · intro hlt
            dsimp only at hlt
            rw [hlen] at hlt
            omega
          · dsimp only
            rw [hlen, if_neg hke]
            simp only [List.length_append, List.length_singleton]
            omega
        · rw [cacheSet_new_room hmem hfull]
          have hlceq : s.cache.length = s.everSet.length := by
            have := hf.len_eq
            omega
          constructor
          · intro hlt x hx
            dsimp only at hlt hx ⊢
            rw [if_neg hke] at hx
            rw [cacheKeys_append]
            rcases List.mem_append.mp hx with hx | hx
            · exact List.mem_append.mpr
                (Or.inl (hf.below_full (by omega) x hx))
            · have : x = k := by simpa using hx
              subst this
              exact List.mem_append.mpr (Or.inr (by simp [cacheKeys]))
          · dsimp only
            rw [if_neg hke]
            simp only [List.length_append, List.length_singleton]
            omega

theorem cacheInv_run (N : Nat) (ops : List CacheOp) (hN : 1 ≤ N) :
    CacheInv N (runOps N ops) := by
  suffices hgen : ∀ (l : List CacheOp) (s : TState), CacheInv N s →
      CacheInv N (l.foldl (stepOp N) s) by
    exact hgen ops initTState (cacheInv_init N)
  intro l
  induction l with
  | nil => exact fun s hs => hs
  | cons op rest ih =>
    intro s hs
    exact ih (stepOp N s op) (cacheInv_step N hN s op hs)

theorem fillInv_run (N : Nat) (ops : List CacheOp) (hN : 1 ≤ N)
    (hops : ∀ op ∈ ops, op ≠ CacheOp.clear) :
    FillInv N (runOps N ops) := by
  suffices hgen : ∀ (l : List CacheOp) (s : TState), (∀ op ∈ l, op ≠ CacheOp.clear) →
      CacheInv N s → FillInv N s → FillInv N (l.foldl (stepOp N) s) by
    exact hgen ops initTState hops (cacheInv_init N) (fillInv_init N)
  intro l
  induction l with
  | nil => exact fun s _ _ hf => hf
  | cons op rest ih =>
    intro s hl hs hf
    exact ih (stepOp N s op) (fun o ho => hl o (List.mem_cons_of_mem _ ho))
      (cacheInv_step N hN s op hs)
      (fillInv_step N hN s op hs hf (hl op (List.mem_cons_self _ _)))

/-! ## The LRU claims -/

/-- Eviction behaviour of a reachable cache state: a `set` of a new key while
the cache is at capacity removes exactly one held entry, and that entry is
the least recently touched among the held entries. -/
def LruEvictionOK (N : Nat) (s : TState) : Prop :=
  ∀ k v, k ∉ cacheKeys s.cache → s.cache.length = N →
    ∃ e, (e ∈ cacheKeys s.cache ∧ e ∉ cacheKeys (stepOp N s (.set k v)).cache) ∧
      (∀ x, x ∈ cacheKeys s.cache → x ∉ cacheKeys (stepOp N s (.set k v)).cache → x = e) ∧
      ∀ k2 ∈ cacheKeys s.cache, k2 ≠ e →
        ∃ i j, s.touch e = some i ∧ s.touch k2 = some j ∧ i < j

/-- Retention behaviour of a reachable cache state: the cache holds exactly
`N` keys, and every held key was touched more recently than every key
currently outside the cache. -/
def LruRetentionOK (N : Nat) (s : TState) : Prop :=
  s.cache.length = N ∧
    ∀ k ∈ cacheKeys s.cache, ∃ j, s.touch k = some j ∧
      ∀ k2, k2 ∉ cacheKeys s.cache → ∀ i, s.touch k2 = some i → i < j

theorem lruEvictionOK_of_inv (N : Nat) (s : TState) (hN : 1 ≤ N) (h : CacheInv N s) :
    LruEvictionOK N s := by
  intro k v hk hlen
  have hfull : N ≤ s.cache.length := le_of_eq hlen.symm
  have hshape : (stepOp N s (.set k v)).cache = s.cache.tail ++ [(k, v)] := by
    have : stepOp N s (.set k v) =
        { cache := cacheSet s.cache k v N, touch := touchUpd s.touch k s.step,
          everSet := if k ∈ s.everSet then s.everSet else s.everSet ++ [k],
          step := s.step + 1 } := rfl
    rw [this, cacheSet_new_full hk hfull]
  rcases hc : s.cache with _ | ⟨p, rest⟩
  · rw [hc] at hlen
    simp at hlen
    omega
  · refine ⟨p.1, ⟨?_, ?_⟩, ?_, ?_⟩
    · simp [cacheKeys]
    · rw [hshape, hc]
      simp only [List.tail_cons, cacheKeys_append]
      intro hmem
      rcases List.mem_append.mp hmem with hmem | hmem
      · have hnd := h.nodup
        rw [hc] at hnd
        simp only [cacheKeys, List.map_cons, List.nodup_cons] at hnd
        exact hnd.1 hmem
      · have : p.1 = k := by simpa [cacheKeys] using hmem
        apply hk
        rw [hc, ← this]
        simp [cacheKeys]
    · intro x hx hxnew
      rw [hshape, hc] at hxnew
      simp only [List.tail_cons, cacheKeys_append] at hxnew
      simp only [cacheKeys, List.map_cons, List.mem_cons] at hx
      rcases hx with hx | hx
      · exact hx
      · exact absurd (List.mem_append.mpr (Or.inl hx)) hxnew
    · intro k2 hk2 hk2ne
      simp only [cacheKeys, List.map_cons, List.mem_cons] at hk2
      have hk2r : k2 ∈ cacheKeys rest := by
        rcases hk2 with hk2 | hk2
        · exact absurd hk2 hk2ne
        · exact hk2
      have hord := h.ordered
      rw [hc] at hord
      simp only [cacheKeys, List.map_cons, List.pairwise_cons] at hord
      have hhd : p.1 ∈ cacheKeys s.cache := by rw [hc]; simp [cacheKeys]
      have hk2m : k2 ∈ cacheKeys s.cache := by
        rw [hc]
        simp only [cacheKeys, List.map_cons, List.mem_cons]
        exact Or.inr hk2r
      obtain ⟨i, hi⟩ := Option.isSome_iff_exists.mp (h.held_touched p.1 hhd)
      obtain ⟨j, hj⟩ := Option.isSome_iff_exists.mp (h.held_touched k2 hk2m)
      exact ⟨i, j, hi, hj, hord.1 k2 hk2r i j hi hj⟩

theorem lruRetentionOK_of_inv (N : Nat) (s : TState) (h : CacheInv N s)
    (hf : FillInv N s) (hmany : N < s.everSet.length) : LruRetentionOK N s := by
  have hlen : s.cache.length = N := by
    have := hf.len_eq
    omega
  refine ⟨hlen, ?_⟩
  intro k hk
  obtain ⟨j, hj⟩ := Option.isSome_iff_exists.mp (h.held_touched k hk)
  exact ⟨j, hj, fun k2 hk2 i hi => h.absent_lt k2 hk2 i hi k hk j hj⟩

/-- Claim C1: replaying any sequence of `get`/`set` operations from a fresh
cache of capacity `N ≥ 1`, a `set` of a new key at capacity always evicts
exactly the least-recently-touched held entry (touches being hits of `get`
and every `set`), and once more than `N` distinct keys have been inserted
the cache retains exactly the `N` most-recently-touched keys. -/
theorem lru_eviction_and_retention (N : Nat) (ops : List CacheOp)
    (hN : 1 ≤ N) (hops : ops.all CacheOp.isGetSet = true) :
    LruEvictionOK N (runOps N ops) ∧
      (N < (runOps N ops).everSet.length → LruRetentionOK N (runOps N ops)) := by
  have hinv := cacheInv_run N ops hN
  have hnoclear : ∀ op ∈ ops, op ≠ CacheOp.clear := by
    intro op hop hcl
    have := List.all_eq_true.mp hops op hop
    rw [hcl] at this
    simp [CacheOp.isGetSet] at this
  have hfill := fillInv_run N ops hN hnoclear
  exact ⟨lruEvictionOK_of_inv N _ hN hinv,
    fun hmany => lruRetentionOK_of_inv N _ hinv hfill hmany⟩

/-- Witness for C1: capacity 2, trace `set a; set b; get a; set c`; the
eviction and retention properties hold at the resulting state (the trace
inserts three distinct keys). -/
theorem lru_eviction_and_retention_witness :
    (1 ≤ 2 ∧
      ([CacheOp.set "a" "1", CacheOp.set "b" "2", CacheOp.get "a",
        CacheOp.set "c" "3"].all CacheOp.isGetSet = true)) ∧
    LruEvictionOK 2 (runOps 2 [CacheOp.set "a" "1", CacheOp.set "b" "2", CacheOp.get "a",
        CacheOp.set "c" "3"]) ∧
    LruRetentionOK 2 (runOps 2 [CacheOp.set "a" "1", CacheOp.set "b" "2", CacheOp.get "a",
        CacheOp.set "c" "3"]) :=
  ⟨⟨by decide, by decide⟩,
    (lru_eviction_and_retention 2 _ (by decide) (by decide)).1,
    (lru_eviction_and_retention 2 _ (by decide) (by decide)).2 (by decide)⟩

/-- Claim C2: replaying any sequence of `get`/`set`/`has`/`clear` operations
from a fresh cache of capacity `N ≥ 1`, the size always satisfies
`0 ≤ size ≤ N`. -/
theorem cache_size_bounded (N : Nat) (ops : List CacheOp) (hN : 1 ≤ N) :
    0 ≤ cacheSize (runOps N ops).cache ∧ cacheSize (runOps N ops).cache ≤ N :=
  ⟨Nat.zero_le _, (cacheInv_run N ops hN).size_le⟩

/-- Witness for C2: capacity 1 with a trace exercising all four operations. -/
theorem cache_size_bounded_witness :
    1 ≤ 1 ∧
      (0 ≤ cacheSize (runOps 1 [CacheOp.set "a" "1", CacheOp.has "a", CacheOp.get "a",
          CacheOp.set "b" "2", CacheOp.clear, CacheOp.set "c" "3"]).cache ∧
        cacheSize (runOps 1 [CacheOp.set "a" "1", CacheOp.has "a", CacheOp.get "a",
          CacheOp.set "b" "2", CacheOp.clear, CacheOp.set "c" "3"]).cache ≤ 1) :=
  ⟨by decide, cache_size_bounded 1 _ (by decide)⟩

/-! ## Claim C7: constructor validation

The spec requires `maxSize < 1` to be rejected at construction with a
`CacheCapacityInvalid` error.  The following definition follows the spec
wording; it is compared against the source constructor, which stores any
capacity without validation. -/

/-- The constructor described by the spec: reject capacities below one with
`CacheCapacityInvalid`, otherwise produce the empty cache. -/
def specCacheConstructor (maxSize : Nat) : Except String ThumbnailLRUCacheState :=
  if maxSize < 1 then Except.error "CacheCapacityInvalid"
  else Except.ok { cache := [], maxSize := maxSize }

/-- Counterexample to C7: at capacity `0 < 1` the source constructor
produces a live cache instance (a subsequent `set` stores an entry), while
the spec demands rejection with `CacheCapacityInvalid`. -/
theorem constructor_accepts_invalid_capacity :
    mkThumbnailLRUCache 0 = { cache := [], maxSize := 0 } ∧
      specCacheConstructor 0 = Except.error "CacheCapacityInvalid" ∧
      cacheSize (cacheSet (mkThumbnailLRUCache 0).cache "k" "v"
        (mkThumbnailLRUCache 0).maxSize) = 1 := by
  refine ⟨rfl, rfl, rfl⟩

/-- Claim C7 amended: the constructor performs no capacity validation — for
every requested capacity, including values below one, it returns a cache
instance with empty contents and exactly that capacity, and the instance is
live (a `set` on it succeeds and stores the key). -/
theorem mkThumbnailLRUCache_total (m : Nat) :
    mkThumbnailLRUCache m = { cache := [], maxSize := m } ∧
      ∀ k v : String,
        cacheHas (cacheSet (mkThumbnailLRUCache m).cache k v m) k = true := by
  refine ⟨rfl, ?_⟩
  intro k v
  have : cacheSet (mkThumbnailLRUCache m).cache k v m = [(k, v)] := by
    simp [mkThumbnailLRUCache, cacheSet, cacheHas, cacheLookup]
  rw [this]
  simp [cacheHas, cacheLookup]

/-! ## The time quantizer (`roundTime`)

`roundTime(time, precision) = Math.round(time / precision) * precision`.
ECMAScript `Math.round` returns the integer nearest to its argument, with a
tie going to the larger (more positive) integer — over exact arithmetic this
is `⌊x + 1/2⌋`.  Times are modelled as rationals. -/

/-- ECMAScript `Math.round`: nearest integer, ties toward positive infinity. -/
def jsRound (x : ℚ) : ℤ := ⌊x + 1 / 2⌋

/-- `roundTime` from the hook. -/
def roundTime (time : ℚ) (precision : ℚ) : ℚ :=
  (jsRound (time / precision) : ℚ) * precision

/-- The rounding described by the spec sentence for C8: the nearest multiple
of the precision, a tie going to the multiple whose quotient is even
(round-half-even applied to `time / precision`). -/
def specRoundTiesEven (time : ℚ) (precision : ℚ) : ℚ :=
  let q := time / precision
  let fl := ⌊q⌋
  if q - fl < 1 / 2 then (fl : ℚ) * precision
  else if 1 / 2 < q - fl then (fl + 1 : ℚ) * precision
  else (if fl % 2 = 0 then (fl : ℚ) else (fl + 1 : ℚ)) * precision

/-- Counterexample to C8: at `time = 5/2`, `precision = 1` the code returns
`3` (ties round up), while rounding ties to the even multiple would give
`2`. -/
theorem roundTime_not_ties_even :
    roundTime (5 / 2) 1 = 3 ∧ specRoundTiesEven (5 / 2) 1 = 2 ∧ (3 : ℚ) ≠ 2 := by
  refine ⟨?_, ?_, by norm_num⟩
  · rw [roundTime, jsRound]
    norm_num
  · rw [specRoundTiesEven]
    norm_num

/-- Claim C8 amended: for every time and every positive precision,
`roundTime` returns the multiple `n * precision` nearest to the time, with a
tie resolved toward positive infinity (the multiple satisfying
`n*p - p/2 ≤ t < n*p + p/2`), not toward the even multiple. -/
theorem roundTime_nearest_ties_up (t p : ℚ) (hp : 0 < p) :
    ∃ n : ℤ, roundTime t p = (n : ℚ) * p ∧
      (n : ℚ) * p - p / 2 ≤ t ∧ t < (n : ℚ) * p + p / 2 := by
  refine ⟨jsRound (t / p), rfl, ?_, ?_⟩
  · have h1 : ((jsRound (t / p) : ℚ)) ≤ t / p + 1 / 2 := Int.floor_le _
    have h2 : ((jsRound (t / p) : ℚ)) - 1 / 2 ≤ t / p := by linarith
    have h3 : (((jsRound (t / p) : ℚ)) - 1 / 2) * p ≤ t := (le_div_iff₀ hp).mp h2
    have h4 : ((jsRound (t / p) : ℚ)) * p - p / 2 =
        (((jsRound (t / p) : ℚ)) - 1 / 2) * p := by ring
    rw [h4]
    exact h3
  · have h1 : t / p + 1 / 2 < ((jsRound (t / p) : ℚ)) + 1 := Int.lt_floor_add_one _
    have h2 : t / p < ((jsRound (t / p) : ℚ)) + 1 / 2 := by linarith
    have h3 : t < (((jsRound (t / p) : ℚ)) + 1 / 2) * p := (div_lt_iff₀ hp).mp h2
    have h4 : (((jsRound (t / p) : ℚ)) + 1 / 2) * p =
        ((jsRound (t / p) : ℚ)) * p + p / 2 := by ring
    rw [h4] at h3
    exact h3

/-- Witness for amended C8 at `t = 7/4`, `p = 1`. -/
theorem roundTime_nearest_ties_up_witness :
    (0 : ℚ) < 1 ∧
      ∃ n : ℤ, roundTime (7 / 4) 1 = (n : ℚ) * 1 ∧
        (n : ℚ) * 1 - 1 / 2 ≤ 7 / 4 ∧ (7 / 4 : ℚ) < (n : ℚ) * 1 + 1 / 2 :=
  ⟨by norm_num, roundTime_nearest_ties_up (7 / 4) 1 (by norm_num)⟩

/-! ## The preview position clamper (`ThumbnailPreview`)

From the `ThumbnailPreview` component: with `THUMBNAIL_WIDTH = 160`,
`halfWidth = 80`, `minPosition = halfWidth / containerWidth * 100`,
`maxPosition = 100 - minPosition`, the rendered position is
`Math.max(minPosition, Math.min(maxPosition, position))`. -/

/-- The position clamping computed by `ThumbnailPreview`. -/
def clampPosition (position containerWidth : ℚ) : ℚ :=
  let halfWidth : ℚ := 160 / 2
  let minPosition := halfWidth / containerWidth * 100
  let maxPosition := 100 - minPosition
  max minPosition (min maxPosition position)

/-- Claim C9: for every hover percent in `[-50, 150]` and container width in
`[160, 2000]`, the clamped percent, converted to a pixel center and expanded
by 80 pixels on each side, stays inside `[0, containerWidth]`. -/
theorem clampPosition_bounds (pos W : ℚ) (_h1 : -50 ≤ pos) (_h2 : pos ≤ 150)
    (h3 : 160 ≤ W) (_h4 : W ≤ 2000) :
    0 ≤ clampPosition pos W / 100 * W - 80 ∧
      clampPosition pos W / 100 * W + 80 ≤ W := by
  have hW : (0 : ℚ) < W := by linarith
  have hWne : W ≠ 0 := ne_of_gt hW
  have hcdef : clampPosition pos W =
      max ((160 : ℚ) / 2 / W * 100) (min (100 - (160 : ℚ) / 2 / W * 100) pos) := rfl
  have hmW : (160 : ℚ) / 2 / W * 100 * W = 8000 := by
    field_simp
    ring
  have hlb : (160 : ℚ) / 2 / W * 100 ≤ clampPosition pos W := by
    rw [hcdef]
    exact le_max_left _ _
  have hmin50 : (160 : ℚ) / 2 / W * 100 ≤ 50 := by
    rw [div_mul_eq_mul_div, div_mul_eq_mul_div, div_le_iff₀ hW]
    linarith
  have hub : clampPosition pos W ≤ 100 - (160 : ℚ) / 2 / W * 100 := by
    rw [hcdef]
    exact max_le (by linarith) (min_le_left _ _)
  have hlbW : 8000 ≤ clampPosition pos W * W := by
    calc (8000 : ℚ) = (160 : ℚ) / 2 / W * 100 * W := hmW.symm
    _ ≤ clampPosition pos W * W := mul_le_mul_of_nonneg_right hlb hW.le
  have hubW : clampPosition pos W * W ≤ 100 * W - 8000 := by
    calc clampPosition pos W * W ≤ (100 - (160 : ℚ) / 2 / W * 100) * W :=
          mul_le_mul_of_nonneg_right hub hW.le
    _ = 100 * W - (160 : ℚ) / 2 / W * 100 * W := by ring
    _ = 100 * W - 8000 := by rw [hmW]
  constructor
  · have : (80 : ℚ) ≤ clampPosition pos W / 100 * W := by
      rw [div_mul_eq_mul_div, le_div_iff₀ (by norm_num : (0 : ℚ) < 100)]
      linarith
    linarith
  · have : clampPosition pos W / 100 * W ≤ W - 80 := by
      rw [div_mul_eq_mul_div, div_le_iff₀ (by norm_num : (0 : ℚ) < 100)]
      linarith
    linarith

/-- Witness for C9 at `pos = 0`, `W = 160`. -/
theorem clampPosition_bounds_witness :
    ((-50 : ℚ) ≤ 0 ∧ (0 : ℚ) ≤ 150 ∧ (160 : ℚ) ≤ 160 ∧ (160 : ℚ) ≤ 2000) ∧
      (0 ≤ clampPosition 0 160 / 100 * 160 - 80 ∧
        clampPosition 0 160 / 100 * 160 + 80 ≤ 160) :=
  ⟨⟨by norm_num, by norm_num, by norm_num, by norm_num⟩,
    clampPosition_bounds 0 160 (by norm_num) (by norm_num) (by norm_num) (by norm_num)⟩

/-! ## The debounced capture scheduler

`generateThumbnail` keeps one pending timeout (`debounceTimeoutRef`) and the
latest requested value (`pendingTimeRef`): every call clears the previous
timeout — if it has not fired yet — and schedules a new one `DEBOUNCE_DELAY`
milliseconds later, which reads the latest value; `debounce` in
`utils/debounce.ts` implements the same mechanism.  We replay a list of
timestamped calls in time order against that state: a pending timeout whose
deadline already passed when the next call arrives has fired; one whose
deadline has not passed is cleared by the call.  `debRun` returns all fires
(deadline paired with the argument the callback reads), in order, after the
last timer has run out. -/

/-- Scheduler state: the pending timeout (deadline and stored argument) and
the fires so far. -/
structure DebState (α : Type) where
  pending : Option (ℚ × α)
  fired : List (ℚ × α)

/-- One call of the debounced function at time `t` with argument `a`:
`clearTimeout` of a not-yet-fired pending timeout, then `setTimeout` for
`t + D`. -/
def debCall {α : Type} (D : ℚ) (s : DebState α) (t : ℚ) (a : α) : DebState α :=
  match s.pending with
  | none => { pending := some (t + D, a), fired := s.fired }
  | some (ft, b) =>
    if ft ≤ t then { pending := some (t + D, a), fired := s.fired ++ [(ft, b)] }
    else { pending := some (t + D, a), fired := s.fired }

/-- Replay timestamped calls (nondecreasing times) and let the last pending
timer run out. -/
def debRun {α : Type} (D : ℚ) (calls : List (ℚ × α)) : List (ℚ × α) :=
  let s := calls.foldl (fun st c => debCall D st c.1 c.2) ⟨none, []⟩
  match s.pending with
  | none => s.fired
  | some p => s.fired ++ [p]

theorem getLastD_cons {α : Type} (x : α) (l : List α) (d : α) :
    (x :: l).getLastD d = l.getLastD x := by
  cases l <;> simp [List.getLastD]

theorem debFold_burst {α : Type} (D : ℚ) :
    ∀ (cs : List (ℚ × α)) (t : ℚ) (a : α) (f : List (ℚ × α)),
      List.Chain (fun p q => p.1 ≤ q.1 ∧ q.1 - p.1 < D) (t, a) cs →
      cs.foldl (fun st c => debCall D st c.1 c.2) ⟨some (t + D, a), f⟩ =
        ⟨some ((cs.getLastD (t, a)).1 + D, (cs.getLastD (t, a)).2), f⟩ := by
  intro cs
  induction cs with
  | nil => intro t a f _; rfl
  | cons c rest ih =>
    intro t a f hch
    obtain ⟨t2, a2⟩ := c
    rcases hch with _ | ⟨⟨hle, hgap⟩, hch⟩
    have hnf : ¬(t + D ≤ t2) := by
      intro hcon
      have : D ≤ t2 - t := by linarith
      linarith
    simp only [List.foldl_cons, debCall, if_neg hnf, getLastD_cons]
    exact ih t2 a2 f hch

theorem debFold_spaced {α : Type} (D : ℚ) :
    ∀ (cs : List (ℚ × α)) (t : ℚ) (a : α) (f : List (ℚ × α)),
      List.Chain (fun p q => p.1 + D < q.1) (t, a) cs →
      cs.foldl (fun st c => debCall D st c.1 c.2) ⟨some (t + D, a), f⟩ =
        ⟨some ((cs.getLastD (t, a)).1 + D, (cs.getLastD (t, a)).2),
          f ++ ((t, a) :: cs).dropLast.map (fun c => (c.1 + D, c.2))⟩ := by
  intro cs
  induction cs with
  | nil => intro t a f _; simp
  | cons c rest ih =>
    intro t a f hch
    obtain ⟨t2, a2⟩ := c
    rcases hch with _ | ⟨hlt, hch⟩
    have hf : t + D ≤ t2 := le_of_lt hlt
    have hc : debCall D ⟨some (t + D, a), f⟩ t2 a2 =
        ⟨some (t2 + D, a2), f ++ [(t + D, a)]⟩ := by
      simp only [debCall, if_pos hf]
    rw [List.foldl_cons]
    dsimp only
    rw [hc, ih t2 a2 (f ++ [(t + D, a)]) hch, getLastD_cons]
    simp [List.dropLast]

theorem dropLast_map_append_getLastD {α β : Type} (g : ℚ × α → β) :
    ∀ (cs : List (ℚ × α)) (t : ℚ) (a : α),
      ((t, a) :: cs).dropLast.map g ++ [g (cs.getLastD (t, a))] =
        ((t, a) :: cs).map g := by
  intro cs
  induction cs with
  | nil => intro t a; simp
  | cons c rest ih =>
    intro t a
    obtain ⟨t2, a2⟩ := c
    rw [getLastD_cons]
    have hd : ((t, a) :: (t2, a2) :: rest).dropLast =
        (t, a) :: ((t2, a2) :: rest).dropLast := by
      simp [List.dropLast]
    rw [hd, List.map_cons, List.cons_append, ih t2 a2]
    simp

/-- Claim C3: for every burst of calls each arriving less than the debounce
delay after the previous one, exactly one downstream fire occurs, carrying
the last call's argument (the requested time) at the last call's deadline;
for calls spaced more than the delay apart, every call fires its own capture
attempt. -/
theorem debounce_coalescing {α : Type} (D : ℚ) :
    (∀ (t : ℚ) (a : α) (cs : List (ℚ × α)),
      List.Chain (fun p q => p.1 ≤ q.1 ∧ q.1 - p.1 < D) (t, a) cs →
      debRun D ((t, a) :: cs) =
        [((cs.getLastD (t, a)).1 + D, (cs.getLastD (t, a)).2)]) ∧
    (∀ (t : ℚ) (a : α) (cs : List (ℚ × α)),
      List.Chain (fun p q => p.1 + D < q.1) (t, a) cs →
      debRun D ((t, a) :: cs) = ((t, a) :: cs).map (fun c => (c.1 + D, c.2))) := by
  constructor
  · intro t a cs hch
    have h0 : debCall D ⟨none, []⟩ t a = ⟨some (t + D, a), []⟩ := rfl
    rw [debRun, List.foldl_cons]
    rw [show debCall D ⟨none, []⟩ t a = (⟨some (t + D, a), []⟩ : DebState α) from rfl]
    rw [debFold_burst D cs t a [] hch]
    rfl
  · intro t a cs hch
    rw [debRun, List.foldl_cons]
    rw [show debCall D ⟨none, []⟩ t a = (⟨some (t + D, a), []⟩ : DebState α) from rfl]
    rw [debFold_spaced D cs t a [] hch]
    exact dropLast_map_append_getLastD _ cs t a

/-- Witness for C3: a burst `0, 50, 90` (gaps below the 100 ms delay) fires
once at `190` with the last argument, and spaced calls `0, 250` fire once
each. -/
theorem debounce_coalescing_witness :
    debRun 100 [((0 : ℚ), (1 : ℕ)), (50, 2), (90, 3)] = [(90 + 100, 3)] ∧
      debRun 100 [((0 : ℚ), (1 : ℕ)), (250, 2)] = [(0 + 100, 1), (250 + 100, 2)] := by
  constructor
  · have hch : List.Chain (fun p q : ℚ × ℕ => p.1 ≤ q.1 ∧ q.1 - p.1 < 100)
        (0, 1) [(50, 2), (90, 3)] := by
      refine List.Chain.cons ⟨?_, ?_⟩ (List.Chain.cons ⟨?_, ?_⟩ List.Chain.nil) <;> norm_num
    simpa using (debounce_coalescing 100).1 0 1 [(50, 2), (90, 3)] hch
  · have hch : List.Chain (fun p q : ℚ × ℕ => p.1 + 100 < q.1) (0, 1) [(250, 2)] := by
      refine List.Chain.cons ?_ List.Chain.nil
      norm_num
    simpa using (debounce_coalescing 100).2 0 1 [(250, 2)] hch

/-! ## The capture engine (`useThumbnailGenerator`)

The remaining claims concern the hook as a whole: its refs
(`cacheRef`, `debounceTimeoutRef`, `pendingTimeRef`, `videoRef`,
`currentVideoSrcRef`), its React state (`thumbnailUrl`, `isLoading`,
`error`), and the listeners a capture attempt attaches to the hidden video.
We model this as a state machine whose events are the pieces of code the
browser can run: the body of `generateThumbnail`, the debounce timeout
callback, the `seeked` and `error` events of the hidden video, the
source-change effect and the teardown cleanup.  The timing of the debounce
timer was analysed in the scheduler section; here `fireTimer` is the
execution of the timeout body. -/

/-- `getCacheKey`: the template string `videoSrc + ":" + roundTime(time)`
(precision `TIME_PRECISION = 1`). -/
def getCacheKey (videoSrc : String) (time : ℚ) : String :=
  videoSrc ++ ":" ++ toString (roundTime time 1)

/-- The `handleSeeked`/`handleError` listener pair one capture attempt
attaches to the hidden video; the closure captures the cache key it will
write to. -/
structure Listener where
  cacheKey : String
  deriving Repr, DecidableEq

/-- The pending debounce timeout of `generateThumbnail`: `pendingTimeRef`
holds the requested time the callback will read, and the callback closure
captured `videoSrc` at call time. -/
structure PendingTimer where
  reqTime : ℚ
  src : String
  deriving Repr, DecidableEq

/-- The mutable state of one `useThumbnailGenerator` instance. -/
structure EngineState where
  cache : Cache
  thumbnailUrl : Option String
  isLoading : Bool
  error : Option String
  pendingTimer : Option PendingTimer
  listeners : List Listener
  boundSrc : Option String
  seekTarget : Option ℚ
  videoPresent : Bool
  deriving Repr, DecidableEq

/-- `generateThumbnail(time)`: return immediately unless enabled, a source is
set and we are in a browser; otherwise clear the previous timeout, store the
requested time and schedule a new timeout whose closure captures the current
`videoSrc`. -/
def generateThumbnail (enabled : Bool) (videoSrc : Option String) (isBrowser : Bool)
    (time : ℚ) (s : EngineState) : EngineState :=
  match videoSrc with
  | none => s
  | some src =>
    if enabled && isBrowser then
      { s with pendingTimer := some { reqTime := time, src := src } }
    else s

/-- The debounce timeout body, executed when the pending timer fires: read
the pending time, build the cache key from the closure's `videoSrc`, consult
the cache (a recency-promoting `get`); on a hit publish the cached thumbnail;
on a miss, if the hidden video element still exists, set the loading state,
attach the `seeked`/`error` listeners and seek the video to the rounded
time. -/
def fireTimer (s : EngineState) : EngineState :=
  match s.pendingTimer with
  | none => s
  | some tm =>
    let s0 := { s with pendingTimer := none }
    let cacheKey := getCacheKey tm.src tm.reqTime
    match cacheGet s0.cache cacheKey with
    | (some cached, c') =>
      { s0 with cache := c', thumbnailUrl := some cached, isLoading := false,
                error := none }
    | (none, c') =>
      if s0.videoPresent then
        { s0 with cache := c', isLoading := true, error := none,
                  listeners := s0.listeners ++ [{ cacheKey := cacheKey }],
                  seekTarget := some (roundTime tm.reqTime 1) }
      else
        { s0 with cache := c', error := some "Video element not available" }

/-- One `handleSeeked` callback: `captureThumbnail` produced `result`; on
success store the image in the cache under the closure's key (capacity
`MAX_CACHE_SIZE = 50`) and publish it, on failure record the error and drop
the published thumbnail; clear the loading flag either way. -/
def runSeekedListener (result : Option String) (s : EngineState) (L : Listener) :
    EngineState :=
  match result with
  | some thumb =>
    { s with cache := cacheSet s.cache L.cacheKey thumb 50,
             thumbnailUrl := some thumb, error := none, isLoading := false }
  | none =>
    { s with error := some "Failed to capture thumbnail", thumbnailUrl := none,
             isLoading := false }

/-- A `seeked` event of the hidden video: every attached `seeked` listener
runs in registration order; each was registered `{ once: true }` and also
removes itself and its error partner, so no listeners remain afterwards.
`frame` is the image the canvas read would produce for the currently
presented frame (`none` when the pixel read is restricted or yields no
image); `captureThumbnail` also returns `null` when the video element is
gone. -/
def dispatchSeeked (frame : Option String) (s : EngineState) : EngineState :=
  let result := if s.videoPresent then frame else none
  s.listeners.foldl (runSeekedListener result) { s with listeners := [] }

/-- One `handleError` callback. -/
def runErrorListener (s : EngineState) (_ : Listener) : EngineState :=
  { s with error := some "Failed to load video for thumbnail", thumbnailUrl := none,
           isLoading := false }

/-- An `error` event of the hidden video: every attached error listener runs
and all listeners are removed. -/
def dispatchError (s : EngineState) : EngineState :=
  s.listeners.foldl runErrorListener { s with listeners := [] }

/-- The source-change effect: when the `videoSrc` prop differs from
`currentVideoSrcRef`, rebind the hidden video to the new source, clear the
cache and reset the published thumbnail and error.  The pending debounce
timeout and any attached listeners are not touched by this effect. -/
def sourceChange (enabled : Bool) (newSrc : String) (s : EngineState) : EngineState :=
  if ¬s.videoPresent ∨ ¬enabled then s
  else if s.boundSrc = some newSrc then s
  else { s with boundSrc := some newSrc, cache := [], thumbnailUrl := none,
                error := none }

/-- The cleanup of the element-creation effect (teardown): drop the hidden
video and canvas elements, clear the cache and cancel a pending debounce
timeout.  Attached listeners are not detached. -/
def teardown (s : EngineState) : EngineState :=
  { s with videoPresent := false, cache := [], pendingTimer := none }

/-- A freshly mounted hook bound to `src`. -/
def initEngine (src : String) : EngineState :=
  { cache := [], thumbnailUrl := none, isLoading := false, error := none,
    pendingTimer := none, listeners := [], boundSrc := some src, seekTarget := none,
    videoPresent := true }

/-! ### Evaluating the quantizer and keys at concrete inputs -/

theorem roundTime_one : roundTime 1 1 = 1 := by
  rw [roundTime, jsRound]
  norm_num

theorem roundTime_five : roundTime 5 1 = 5 := by
  rw [roundTime, jsRound]
  norm_num

theorem getCacheKey_a1 : getCacheKey "a" 1 = "a:1" := by
  rw [getCacheKey, roundTime_one]
  decide

theorem getCacheKey_a5 : getCacheKey "a" 5 = "a:5" := by
  rw [getCacheKey, roundTime_five]
  decide

/-! ## Claim C10: the guard of `generateThumbnail` -/

/-- Claim C10: when generation is disabled or no video source is bound,
`generateThumbnail` returns immediately: no timer is scheduled, the cache is
untouched and `thumbnailUrl`, `isLoading`, `error` are unchanged (in
particular no error is reported). -/
theorem generateThumbnail_guard (enabled : Bool) (videoSrc : Option String)
    (isBrowser : Bool) (time : ℚ) (s : EngineState)
    (h : enabled = false ∨ videoSrc = none) :
    generateThumbnail enabled videoSrc isBrowser time s = s := by
  rcases h with h | h
  · subst h
    cases videoSrc with
    | none => rfl
    | some src => simp [generateThumbnail]
  · subst h
    rfl

/-- Witness for C10: disabled generation with a bound source leaves a fresh
engine untouched. -/
theorem generateThumbnail_guard_witness :
    (false = false ∨ (some "a" : Option String) = none) ∧
      generateThumbnail false (some "a") true 1 (initEngine "a") = initEngine "a" :=
  ⟨Or.inl rfl, generateThumbnail_guard false (some "a") true 1 (initEngine "a") (Or.inl rfl)⟩

/-! ## Claim C6: capture failure leaves the cache alone and degrades state -/

theorem foldl_seeked_failure :
    ∀ (ls : List Listener) (s : EngineState), ls ≠ [] →
      ls.foldl (runSeekedListener none) s =
        { s with error := some "Failed to capture thumbnail", thumbnailUrl := none,
                 isLoading := false } := by
  intro ls
  induction ls with
  | nil => intro s hs; exact absurd rfl hs
  | cons L rest ih =>
    intro s _
    rw [List.foldl_cons]
    cases rest with
    | nil => rfl
    | cons L2 rest2 =>
      rw [ih (runSeekedListener none s L) (by simp)]
      rfl

theorem foldl_error_listeners :
    ∀ (ls : List Listener) (s : EngineState), ls ≠ [] →
      ls.foldl runErrorListener s =
        { s with error := some "Failed to load video for thumbnail",
                 thumbnailUrl := none, isLoading := false } := by
  intro ls
  induction ls with
  | nil => intro s hs; exact absurd rfl hs
  | cons L rest ih =>
    intro s _
    rw [List.foldl_cons]
    cases rest with
    | nil => rfl
    | cons L2 rest2 =>
      rw [ih (runErrorListener s L) (by simp)]
      rfl

/-- Claim C6: whenever a capture attempt is in flight (its listeners are
attached) and it fails — the frame read is restricted or returns no image
(`seeked` fires but `captureThumbnail` yields nothing), or the video errors —
the cache is left unmodified, `error` is set, the thumbnail handle becomes
`none`, and `isLoading` ends up `false`. -/
theorem capture_failure_degrades (s : EngineState) (h : s.listeners ≠ []) :
    ((dispatchSeeked none s).cache = s.cache ∧
      (dispatchSeeked none s).error = some "Failed to capture thumbnail" ∧
      (dispatchSeeked none s).thumbnailUrl = none ∧
      (dispatchSeeked none s).isLoading = false) ∧
    ((dispatchError s).cache = s.cache ∧
      (dispatchError s).error = some "Failed to load video for thumbnail" ∧
      (dispatchError s).thumbnailUrl = none ∧
      (dispatchError s).isLoading = false) := by
  have hres : (if s.videoPresent then (none : Option String) else none) = none :=
    ite_self _
  have h1 : dispatchSeeked none s =
      { s with listeners := [], error := some "Failed to capture thumbnail",
               thumbnailUrl := none, isLoading := false } := by
    rw [dispatchSeeked]
    rw [hres]
    rw [foldl_seeked_failure s.listeners _ h]
  have h2 : dispatchError s =
      { s with listeners := [], error := some "Failed to load video for thumbnail",
               thumbnailUrl := none, isLoading := false } := by
    rw [dispatchError]
    rw [foldl_error_listeners s.listeners _ h]
  rw [h1, h2]
  exact ⟨⟨rfl, rfl, rfl, rfl⟩, ⟨rfl, rfl, rfl, rfl⟩⟩

/-- An engine with one capture in flight, used as the C6 witness state. -/
def c6State : EngineState :=
  { initEngine "a" with listeners := [{ cacheKey := "a:1" }], isLoading := true }

/-- Witness for C6: at an engine with one capture in flight, both failure
paths degrade the state exactly as claimed. -/
theorem capture_failure_degrades_witness :
    c6State.listeners ≠ [] ∧
      (((dispatchSeeked none c6State).cache = c6State.cache ∧
          (dispatchSeeked none c6State).error = some "Failed to capture thumbnail" ∧
          (dispatchSeeked none c6State).thumbnailUrl = none ∧
          (dispatchSeeked none c6State).isLoading = false) ∧
        ((dispatchError c6State).cache = c6State.cache ∧
          (dispatchError c6State).error = some "Failed to load video for thumbnail" ∧
          (dispatchError c6State).thumbnailUrl = none ∧
          (dispatchError c6State).isLoading = false)) :=
  ⟨by decide, capture_failure_degrades c6State (by decide)⟩

/-! ## Claim C4: superseded captures are not abandoned

The claim states that a new capture request for a different time arriving
while a capture is in flight detaches the in-flight capture's completion
listeners.  In the code the listeners of a capture attempt are removed only
when they themselves fire: when a second timeout body runs while the first
capture is still seeking, both listener pairs are attached, and on the next
`seeked` event (the video having stabilised at the *new* time) the old
handler runs first and stores the frame presented at the new time in the
cache under the old request's key. -/

/-- The engine after: request time 1, its timer fires (capture 1 in flight,
seeking), request time 5, its timer fires (capture 2 attached as well). -/
def c4Engine : EngineState :=
  fireTimer (generateThumbnail true (some "a") true 5
    (fireTimer (generateThumbnail true (some "a") true 1 (initEngine "a"))))

/-- Claim C4, evaluated at the failing input: after the second capture
attempt starts, the first attempt's listeners are still attached (nothing
was detached), and when `seeked` fires with the frame of time 5, that frame
is written into the cache under time 1's key — the in-flight capture for
time 1 writes cache state tied to the newer capture's frame. -/
theorem inflight_listeners_not_detached :
    c4Engine.listeners =
      [{ cacheKey := getCacheKey "a" 1 }, { cacheKey := getCacheKey "a" 5 }] ∧
      (dispatchSeeked (some "F5") c4Engine).cache =
        [(getCacheKey "a" 1, "F5"), (getCacheKey "a" 5, "F5")] ∧
      cacheLookup (dispatchSeeked (some "F5") c4Engine).cache (getCacheKey "a" 1) =
        some "F5" := by
  have hshape : c4Engine =
      { initEngine "a" with
          isLoading := true,
          listeners := [{ cacheKey := getCacheKey "a" 1 },
            { cacheKey := getCacheKey "a" 5 }],
          seekTarget := some (roundTime 5 1) } := rfl
  rw [hshape, getCacheKey_a1, getCacheKey_a5, roundTime_five]
  decide

/-! ## Claim C5: source change does not cancel pending work

The claim states that changing the bound media source clears the cache,
cancels any pending debounce timer and detaches in-flight capture callbacks.
The source-change effect only clears the cache and resets the published
state: a pending timeout survives it, carries the old source in its closure,
and when it fires it runs a full capture against the rebound video — storing
a frame of the new source in the just-cleared cache under the old source's
key and publishing it. -/

/-- The engine after: request time 1 under source `a`, then the source
changes to `b` before the debounce timer fires. -/
def c5Engine : EngineState :=
  sourceChange true "b" (generateThumbnail true (some "a") true 1 (initEngine "a"))

/-- Claim C5, evaluated at the failing input: after the source change the
pending debounce timer still exists (it was not cancelled) and still carries
the old source; the cache is cleared; when the timer then fires it attaches
listeners keyed by the old source, and the following `seeked` event (frame
from source `b`) writes that frame into the cache under the old source's key
and publishes it. -/
theorem source_change_keeps_old_capture :
    c5Engine.pendingTimer = some { reqTime := 1, src := "a" } ∧
      c5Engine.cache = [] ∧
      c5Engine.boundSrc = some "b" ∧
      (fireTimer c5Engine).listeners = [{ cacheKey := getCacheKey "a" 1 }] ∧
      (dispatchSeeked (some "Bframe") (fireTimer c5Engine)).cache =
        [(getCacheKey "a" 1, "Bframe")] ∧
      (dispatchSeeked (some "Bframe") (fireTimer c5Engine)).thumbnailUrl =
        some "Bframe" := by
  have h1 : c5Engine =
      { initEngine "a" with
          boundSrc := some "b",
          pendingTimer := some { reqTime := 1, src := "a" } } := rfl
  have h2 : fireTimer c5Engine =
      { initEngine "a" with
          boundSrc := some "b",
          isLoading := true,
          listeners := [{ cacheKey := getCacheKey "a" 1 }],
          seekTarget := some (roundTime 1 1) } := rfl
  refine ⟨?_, ?_, ?_, ?_, ?_, ?_⟩
  · rw [h1]
  · rw [h1]
    rfl
  · rw [h1]
  · rw [h2, getCacheKey_a1]
  · rw [h2, getCacheKey_a1, roundTime_one]
    decide
  · rw [h2, getCacheKey_a1, roundTime_one]
    decide

end VidPlayer
